import Mathlib

/-!
Verification of the core of `fd` (parallel filesystem search):
`src/exit_codes.rs` and `src/walk.rs`, shallowly embedded.

Paths are modelled as byte sequences (`List Nat`); the buffered output
sort (`Vec<PathBuf>::sort`) is modelled by insertion sort under `PathBuf`'s
order: component-wise lexicographic comparison, components compared by
their bytes.
-/

/-- A filesystem path, as its byte sequence; the separator `/` is byte 47. -/
abbrev FPath := List Nat

/-- Strict lexicographic comparison of two path components by their bytes:
embeds the `Ord` of a Unix `OsStr` (plain byte order), which is how the
normal components of a `Path` compare. -/
def compLt : List Nat → List Nat → Bool
  | [], [] => false
  | [], _ :: _ => true
  | _ :: _, [] => false
  | a :: as, b :: bs => if a < b then true else if b < a then false else compLt as bs

/-- The components of a path's byte string, split at the separator byte 47:
embeds `Path::components` for paths in the normalized shape a traversal
produces (no repeated or trailing separators). -/
def splitComponents (p : FPath) : List (List Nat) :=
  p.foldr
    (fun b acc =>
      if b = 47 then [] :: acc
      else
        match acc with
        | [] => [[b]]
        | c :: cs => (b :: c) :: cs)
    [[]]

/-- Lexicographic comparison of component lists, as a `≤` test: embeds
`Iterator::cmp` over `Components`, which is `Ord for Path`. -/
def componentsLe : List (List Nat) → List (List Nat) → Bool
  | [], _ => true
  | _ :: _, [] => false
  | c :: cs, d :: ds =>
    if compLt c d then true else if compLt d c then false else componentsLe cs ds

/-- The comparator of `buffer.sort()` on `Vec<PathBuf>` (walk.rs line 285):
`PathBuf`'s `Ord`, i.e. component-wise lexicographic comparison of the
paths, with components compared by their bytes. -/
def pathLe (p q : FPath) : Bool :=
  componentsLe (splitComponents p) (splitComponents q)

/-- The ordering relation used to sort the receiver's buffer. -/
def PathLe (p q : FPath) : Prop := pathLe p q = true

instance : DecidableRel PathLe := fun p q => inferInstanceAs (Decidable (pathLe p q = true))

/-- The order C3's wording describes: lexicographic on the raw bytes of the
whole path.  This definition follows the claim's words, not the code; it is
kept only to compare with the order `buffer.sort()` actually uses. -/
def byteLexLe : List Nat → List Nat → Bool
  | [], _ => true
  | _ :: _, [] => false
  | a :: as, b :: bs => if a < b then true else if b < a then false else byteLexLe as bs

/-- Byte-lexicographic order on paths, as C3's wording states it. -/
def PathBytesLe (p q : FPath) : Prop := byteLexLe p q = true

instance : DecidableRel PathBytesLe :=
  fun p q => inferInstanceAs (Decidable (byteLexLe p q = true))

theorem compLt_irrefl : ∀ a : List Nat, compLt a a = false := by
  intro a
  induction a with
  | nil => rfl
  | cons x xs ih =>
    rw [compLt]
    simp [Nat.lt_irrefl, ih]

theorem compLt_trans : ∀ a b c : List Nat,
    compLt a b = true → compLt b c = true → compLt a c = true := by
  intro a
  induction a with
  | nil =>
    intro b c hab hbc
    cases b with
    | nil => simp [compLt] at hab
    | cons y ys =>
      cases c with
      | nil => simp [compLt] at hbc
      | cons z zs => rfl
  | cons x xs ih =>
    intro b c hab hbc
    cases b with
    | nil => simp [compLt] at hab
    | cons y ys =>
      cases c with
      | nil => simp [compLt] at hbc
      | cons z zs =>
        rw [compLt] at hab hbc ⊢
        by_cases hxy : x < y
        · by_cases hyz : y < z
          · simp [show x < z by omega]
          · by_cases hzy : z < y
            · simp [hyz, hzy] at hbc
            · have hyzeq : y = z := by omega
              subst hyzeq
              simp [hxy]
        · by_cases hyx : y < x
          · simp [hxy, hyx] at hab
          · have hxyeq : x = y := by omega
            subst hxyeq
            simp only [Nat.lt_irrefl, if_false] at hab
            by_cases hxz : x < z
            · simp [hxz]
            · by_cases hzx : z < x
              · simp [hxz, hzx] at hbc
              · have hxzeq : x = z := by omega
                subst hxzeq
                simp only [Nat.lt_irrefl, if_false] at hbc ⊢
                exact ih ys zs hab hbc

theorem compLt_eq_of_not : ∀ a b : List Nat,
    compLt a b = false → compLt b a = false → a = b := by
  intro a
  induction a with
  | nil =>
    intro b hab _
    cases b with
    | nil => rfl
    | cons y ys => simp [compLt] at hab
  | cons x xs ih =>
    intro b hab hba
    cases b with
    | nil => simp [compLt] at hba
    | cons y ys =>
      rw [compLt] at hab hba
      by_cases hxy : x < y
      · simp [hxy] at hab
      · by_cases hyx : y < x
        · simp [hyx] at hba
        · have hxyeq : x = y := by omega
          subst hxyeq
          simp only [Nat.lt_irrefl, if_false] at hab hba
          rw [ih ys hab hba]

theorem componentsLe_total : ∀ p q : List (List Nat),
    componentsLe p q = true ∨ componentsLe q p = true := by
  intro p
  induction p with
  | nil => intro q; left; rfl
  | cons c cs ih =>
    intro q
    cases q with
    | nil => right; rfl
    | cons d ds =>
      by_cases hcd : compLt c d = true
      · left
        rw [componentsLe]
        simp [hcd]
      · by_cases hdc : compLt d c = true
        · right
          rw [componentsLe]
          simp [hdc]
        · have hc : compLt c d = false := by simpa using hcd
          have hd : compLt d c = false := by simpa using hdc
          rcases ih ds with h | h
          · left
            rw [componentsLe]
            simp [hc, hd, h]
          · right
            rw [componentsLe]
            simp [hc, hd, h]

theorem componentsLe_trans : ∀ p q r : List (List Nat),
    componentsLe p q = true → componentsLe q r = true → componentsLe p r = true := by
  intro p
  induction p with
  | nil => intro q r _ _; rfl
  | cons c cs ih =>
    intro q r hpq hqr
    cases q with
    | nil => simp [componentsLe] at hpq
    | cons d ds =>
      cases r with
      | nil => simp [componentsLe] at hqr
      | cons e es =>
        rw [componentsLe] at hpq hqr ⊢
        by_cases hcd : compLt c d = true
        · by_cases hde : compLt d e = true
          · simp [compLt_trans c d e hcd hde]
          · by_cases hed : compLt e d = true
            · simp [hde, hed] at hqr
            · have h1 : compLt d e = false := by simpa using hde
              have h2 : compLt e d = false := by simpa using hed
              have hdeq : d = e := compLt_eq_of_not d e h1 h2
              subst hdeq
              simp [hcd]
        · by_cases hdc : compLt d c = true
          · simp [hcd, hdc] at hpq
          · have h1 : compLt c d = false := by simpa using hcd
            have h2 : compLt d c = false := by simpa using hdc
            have hceq : c = d := compLt_eq_of_not c d h1 h2
            subst hceq
            simp only [compLt_irrefl, if_false] at hpq
            by_cases hce : compLt c e = true
            · simp [hce]
            · by_cases hec : compLt e c = true
              · simp [hce, hec] at hqr
              · have h3 : compLt c e = false := by simpa using hce
                have h4 : compLt e c = false := by simpa using hec
                simp only [compLt_irrefl, h3, h4, if_false] at hqr ⊢
                exact ih ds es hpq hqr

instance : IsTotal FPath PathLe :=
  ⟨fun p q => componentsLe_total (splitComponents p) (splitComponents q)⟩

instance : IsTrans FPath PathLe :=
  ⟨fun p q r hpq hqr =>
    componentsLe_trans (splitComponents p) (splitComponents q) (splitComponents r) hpq hqr⟩

/-- Embeds `buffer.sort()` on `Vec<PathBuf>` (walk.rs line 285): sort by
`PathBuf`'s component-wise order. -/
def sortPaths (l : List FPath) : List FPath := List.insertionSort PathLe l

/-! ## `src/exit_codes.rs` -/

/-- Rust `ExitCode` (exit_codes.rs lines 1-7). -/
inductive ExitCode where
  | success
  | hasResults (has_results : Bool)
  | generalError
  | killedBySigint
deriving DecidableEq

/-- Embeds `impl From<ExitCode> for i32` (exit_codes.rs lines 9-18).
`HasResults(has_results)` maps to `!has_results as i32`. -/
def ExitCode.toInt : ExitCode → Int
  | .success => 0
  | .hasResults has_results => (Bool.toNat (!has_results) : Int)
  | .generalError => 1
  | .killedBySigint => 130

/-- Embeds `ExitCode::is_error` (exit_codes.rs lines 20-24). -/
def ExitCode.is_error (c : ExitCode) : Bool := decide (c.toInt ≠ 0)

/-- Embeds `merge_exitcodes` (exit_codes.rs lines 26-31). -/
def merge_exitcodes (results : List ExitCode) : ExitCode :=
  if results.any ExitCode.is_error then .generalError else .success

/-! ## `src/walk.rs`: data model -/

/-- The kind of an `io::Error`, as far as walk.rs inspects it. -/
inductive IoErrorKind where
  | notFound
  | permissionDenied
  | otherKind
deriving DecidableEq

/-- An `std::fs::FileType`, as far as walk.rs inspects it. -/
structure FileTypeM where
  is_symlink : Bool
deriving DecidableEq

/-- An `std::fs::Metadata`, as far as walk.rs inspects it. -/
structure MetadataM where
  fileType : FileTypeM
deriving DecidableEq

/-- The constructors of `ignore::Error` that walk.rs distinguishes:
`WithPath { path, err }` (boxed inner error), `Io(io_error)`, and the rest. -/
inductive IgnoreError where
  | withPath (path : FPath) (err : IgnoreError)
  | io (kind : IoErrorKind)
  | otherErr
deriving DecidableEq

/-- An `ignore::DirEntry` (the `Ok` side of a traversal result): its path,
walker-reported depth, walker-cached file type, and the result that
`e.metadata().ok()` would produce when invoked. -/
structure IgnoreDirEntry where
  path : FPath
  depth : Nat
  fileType : Option FileTypeM
  metaResult : Option MetadataM
deriving DecidableEq

/-- Embeds `DirEntryInner` (walk.rs lines 299-302). -/
inductive DirEntryInner where
  | normal (e : IgnoreDirEntry)
  | brokenSymlink (path : FPath)
deriving DecidableEq

/-- Embeds `DirEntry` (walk.rs lines 304-307): the inner entry plus the
`OnceCell<Option<Metadata>>`; `none` models an unset cell. -/
structure DirEntry where
  inner : DirEntryInner
  cell : Option (Option MetadataM)
deriving DecidableEq

/-- Embeds `DirEntry::normal` (walk.rs lines 310-315). -/
def DirEntry.normal (e : IgnoreDirEntry) : DirEntry := ⟨.normal e, none⟩

/-- Embeds `DirEntry::broken_symlink` (walk.rs lines 317-322). -/
def DirEntry.broken_symlink (p : FPath) : DirEntry := ⟨.brokenSymlink p, none⟩

/-- The stat syscall that `DirEntry::metadata`'s initializer performs
(walk.rs lines 340-343): `e.metadata().ok()` for a normal entry,
`path.symlink_metadata().ok()` for a broken symlink.  The filesystem's
answer to `symlink_metadata` is the oracle `fs`. -/
def statOf (fs : FPath → Option MetadataM) : DirEntryInner → Option MetadataM
  | .normal e => e.metaResult
  | .brokenSymlink p => fs p

/-- Embeds `DirEntry::metadata` (walk.rs lines 338-345), in state-passing form:
returns the value, the updated entry, and how many stat operations the
call performed. -/
def DirEntry.metadata (fs : FPath → Option MetadataM) (s : DirEntry) :
    Option MetadataM × DirEntry × Nat :=
  match s.cell with
  | some v => (v, s, 0)
  | none => (statOf fs s.inner, { s with cell := some (statOf fs s.inner) }, 1)

/-- Embeds `DirEntry::file_type` (walk.rs lines 331-336), in state-passing form. -/
def DirEntry.file_type (fs : FPath → Option MetadataM) (s : DirEntry) :
    Option FileTypeM × DirEntry × Nat :=
  match s.inner with
  | .normal e => (e.fileType, s, 0)
  | .brokenSymlink _ =>
    match s.metadata fs with
    | (m, s', n) => (m.map (fun md => md.fileType), s', n)

/-- Embeds `DirEntry::depth` (walk.rs lines 347-352). -/
def DirEntry.depth (s : DirEntry) : Option Nat :=
  match s.inner with
  | .normal e => some e.depth
  | .brokenSymlink _ => none

/-- One observable operation on a `DirEntry`. -/
inductive MetaCall where
  | metadataOp
  | fileTypeOp
deriving DecidableEq

/-- Run a sequence of `metadata()` / `file_type()` calls on a `DirEntry`,
returning the final entry and the total number of stat operations. -/
def run_meta_calls (fs : FPath → Option MetadataM) :
    List MetaCall → DirEntry → DirEntry × Nat
  | [], s => (s, 0)
  | c :: cs, s =>
    let r : DirEntry × Nat :=
      match c with
      | .metadataOp => ((s.metadata fs).2.1, (s.metadata fs).2.2)
      | .fileTypeOp => ((s.file_type fs).2.1, (s.file_type fs).2.2)
    let rest := run_meta_calls fs cs r.1
    (rest.1, r.2 + rest.2)

/-! ## `src/walk.rs`: worker (sender) side -/

/-- What the worker closure does with one traversal result
before the filter pipeline (walk.rs lines 373-408). -/
inductive SenderAction where
  | skipRoot
  | entry (e : DirEntry)
  | sendError (e : IgnoreError)
deriving DecidableEq

/-- Entry classification in `spawn_senders` (walk.rs lines 373-408).
`fs` is the `symlink_metadata` oracle.  A `WithPath` error whose inner
error is I/O `NotFound` and whose path stats as a symlink becomes a
`BrokenSymlink` entry; every other error is sent as a `WorkerResult::Error`;
the root entry (depth 0) is skipped. -/
def classify_entry (fs : FPath → Option MetadataM) :
    Except IgnoreError IgnoreDirEntry → SenderAction
  | .ok e => if e.depth = 0 then .skipRoot else .entry (DirEntry.normal e)
  | .error (.withPath path (.io kind)) =>
    if kind = .notFound ∧ ((fs path).map (fun m => m.fileType.is_symlink)).getD false = true
    then .entry (DirEntry.broken_symlink path)
    else .sendError (.withPath path (.io kind))
  | .error (.withPath path inner) => .sendError (.withPath path inner)
  | .error e => .sendError e

/-- The `min_depth` rejection test (walk.rs lines 410-414):
`entry.depth().map_or(true, |d| d < min_depth)`. -/
def min_depth_rejects (minDepth : Option Nat) (e : DirEntry) : Bool :=
  match minDepth with
  | some d => ((e.depth).map (fun dep => decide (dep < d))).getD true
  | none => false

/-- The worker's decision whether to emit a classified entry
(walk.rs lines 410-505).  The filters after the `min_depth` gate
(name match, extensions, file types, owner, size, time; lines 416-503)
are abstracted into the oracle `laterFilters`, since no claim depends
on them. -/
def worker_emits (minDepth : Option Nat) (laterFilters : DirEntry → Bool)
    (e : DirEntry) : Bool :=
  if min_depth_rejects minDepth e then false else laterFilters e

/-! ## `src/walk.rs`: receiver (interactive, no `--exec` command) -/

/-- Embeds `WorkerResult` (walk.rs lines 37-40). -/
inductive WorkerResult where
  | entry (path : FPath)
  | error (err : IgnoreError)
deriving DecidableEq

/-- Constant `MAX_BUFFER_LENGTH` (walk.rs line 43). -/
def MAX_BUFFER_LENGTH : Nat := 1000

/-- Constant `DEFAULT_MAX_BUFFER_TIME` (walk.rs line 45), in milliseconds. -/
def DEFAULT_MAX_BUFFER_TIME : Nat := 100

/-- A message as the receiver sees it: the worker result together with the
value `start.elapsed()` has (in milliseconds) when the receiver
processes this message. -/
structure TimedMsg where
  res : WorkerResult
  elapsed : Nat
deriving DecidableEq

/-- The receiver configuration fields used in interactive mode. -/
structure RConfig where
  quiet : Bool
  maxResults : Option Nat
  maxBufferTime : Option Nat
  showFilesystemErrors : Bool
deriving DecidableEq

/-- Embeds `config.max_buffer_time.unwrap_or(DEFAULT_MAX_BUFFER_TIME)`
(walk.rs line 226). -/
def RConfig.maxBufTime (cfg : RConfig) : Nat :=
  cfg.maxBufferTime.getD DEFAULT_MAX_BUFFER_TIME

/-- Embeds `ReceiverMode` (walk.rs lines 27-34). -/
inductive ReceiverMode where
  | buffering
  | streaming
deriving DecidableEq

/-- The receiver's loop state: mode, buffer, `num_results`, everything
printed to stdout so far (`out`), everything printed to stderr so far
(`errOut`), and a ghost counter of buffered flushes. -/
structure RState where
  mode : ReceiverMode
  buffer : List FPath
  numResults : Nat
  out : List FPath
  errOut : List IgnoreError
  flushes : Nat
deriving DecidableEq

/-- The receiver's initial state (walk.rs lines 218-231). -/
def initRState : RState := ⟨.buffering, [], 0, [], [], 0⟩

/-- Processing one `WorkerResult::Entry` in non-quiet interactive mode
(walk.rs lines 240-268): buffer or flush-and-stream or stream, then
increment `num_results`. -/
def entryStep (cfg : RConfig) (p : FPath) (elapsed : Nat) (st : RState) : RState :=
  let st1 :=
    match st.mode with
    | .buffering =>
      let buf := st.buffer ++ [p]
      if MAX_BUFFER_LENGTH < buf.length ∨ cfg.maxBufTime < elapsed then
        { st with mode := .streaming, buffer := [],
                  out := st.out ++ buf, flushes := st.flushes + 1 }
      else
        { st with buffer := buf }
    | .streaming => { st with out := st.out ++ [p] }
  { st1 with numResults := st1.numResults + 1 }

/-- How the receiver's loop ended: early `return HasResults(true)` in quiet
mode (walk.rs lines 236-238), or leaving the loop (`break` on
`max_results`, walk.rs lines 269-273, or channel closure).  Each carries
the state and the unconsumed messages. -/
inductive LoopOutcome where
  | earlyQuiet (st : RState) (remaining : List TimedMsg)
  | finished (st : RState) (remaining : List TimedMsg)
deriving DecidableEq

/-- The receiver's message loop `for worker_result in rx { ... }`
(walk.rs lines 233-281). -/
def recvLoop (cfg : RConfig) : RState → List TimedMsg → LoopOutcome
  | st, [] => .finished st []
  | st, m :: rest =>
    match m.res with
    | .entry p =>
      if cfg.quiet then .earlyQuiet st rest
      else
        let st2 := entryStep cfg p m.elapsed st
        match cfg.maxResults with
        | some k => if k ≤ st2.numResults then .finished st2 rest else recvLoop cfg st2 rest
        | none => recvLoop cfg st2 rest
    | .error e =>
      let st1 := if cfg.showFilesystemErrors then { st with errOut := st.errOut ++ [e] } else st
      recvLoop cfg st1 rest

/-- What the interactive receiver produced: the exit code, stdout lines,
stderr lines, and the messages it never consumed. -/
structure RecvResult where
  exit : ExitCode
  out : List FPath
  errOut : List IgnoreError
  remaining : List TimedMsg
deriving DecidableEq

/-- The interactive branch of `spawn_receiver` (walk.rs lines 217-295):
run the loop from the initial state; on quiet early return, yield
`HasResults(true)`; otherwise sort and print the leftover buffer
(walk.rs lines 283-288) and yield `HasResults(false)` if quiet else
`Success` (walk.rs lines 290-294). -/
def run_receiver (cfg : RConfig) (msgs : List TimedMsg) : RecvResult :=
  match recvLoop cfg initRState msgs with
  | .earlyQuiet st rem => ⟨.hasResults true, st.out, st.errOut, rem⟩
  | .finished st rem =>
    ⟨if cfg.quiet then .hasResults false else .success,
     st.out ++ sortPaths st.buffer, st.errOut, rem⟩

/-- Is this message an `Entry`? -/
def isEntryMsg (m : TimedMsg) : Bool :=
  match m.res with
  | .entry _ => true
  | .error _ => false

/-- The number of `Entry` messages in a sequence (`produced`). -/
def countEntries (msgs : List TimedMsg) : Nat := (msgs.filter isEntryMsg).length

/-- An entry message stream from (path, elapsed) pairs. -/
def entryMsgs (ps : List (FPath × Nat)) : List TimedMsg :=
  ps.map (fun pt => ⟨.entry pt.1, pt.2⟩)

/-! ## Claims about `src/exit_codes.rs` -/

theorem any_is_error_iff (S : List ExitCode) :
    S.any ExitCode.is_error = true ↔ ∃ x ∈ S, ExitCode.toInt x ≠ 0 := by
  rw [List.any_eq_true]
  constructor
  · rintro ⟨x, hx, he⟩
    exact ⟨x, hx, of_decide_eq_true he⟩
  · rintro ⟨x, hx, he⟩
    exact ⟨x, hx, decide_eq_true he⟩

/-- C4: `merge_exitcodes S` is `GeneralError` iff some element of `S` maps to
a nonzero integer and is `Success` otherwise; `merge_exitcodes [] = Success`;
any sequence containing `KilledBySigint` merges to `GeneralError`. -/
theorem merge_exitcodes_spec :
    (∀ S : List ExitCode,
      (merge_exitcodes S = .generalError ↔ ∃ x ∈ S, ExitCode.toInt x ≠ 0)) ∧
    (∀ S : List ExitCode,
      (¬ ∃ x ∈ S, ExitCode.toInt x ≠ 0) → merge_exitcodes S = .success) ∧
    merge_exitcodes [] = .success ∧
    (∀ S : List ExitCode,
      ExitCode.killedBySigint ∈ S → merge_exitcodes S = .generalError) := by
  refine ⟨?_, ?_, rfl, ?_⟩
  · intro S
    rw [merge_exitcodes]
    by_cases h : S.any ExitCode.is_error = true
    · simp only [h, if_true]
      exact iff_of_true trivial ((any_is_error_iff S).mp h)
    · simp only [h, if_false]
      exact iff_of_false (by simp) fun hx => h ((any_is_error_iff S).mpr hx)
  · intro S hno
    rw [merge_exitcodes, if_neg]
    intro h
    exact hno ((any_is_error_iff S).mp h)
  · intro S hmem
    rw [merge_exitcodes, if_pos]
    exact (any_is_error_iff S).mpr ⟨.killedBySigint, hmem, by decide⟩

/-- Witness for C4 at a concrete sequence containing `KilledBySigint`. -/
theorem merge_exitcodes_spec_w :
    merge_exitcodes [ExitCode.success, ExitCode.killedBySigint] = .generalError :=
  merge_exitcodes_spec.2.2.2 [ExitCode.success, ExitCode.killedBySigint] (by decide)

/-- C5: the `ExitCode`-to-integer mapping: `Success ↦ 0`,
`HasResults(true) ↦ 0`, `HasResults(false) ↦ 1`, `GeneralError ↦ 1`,
`KilledBySigint ↦ 130`. -/
theorem exitcode_toInt_spec :
    ExitCode.toInt .success = 0 ∧ ExitCode.toInt (.hasResults true) = 0 ∧
    ExitCode.toInt (.hasResults false) = 1 ∧ ExitCode.toInt .generalError = 1 ∧
    ExitCode.toInt .killedBySigint = 130 := by
  decide

/-! ## Claims about the worker side of `src/walk.rs` -/

/-- C6: a `WithPath` traversal error whose inner error is I/O `NotFound` and
whose path has symlink metadata reporting a symlink is wrapped as a
`BrokenSymlink` entry; every other traversal error is sent as a
`WorkerResult::Error` carrying the same error. -/
theorem classify_entry_broken_symlink_spec :
    ∀ (fs : FPath → Option MetadataM) (err : IgnoreError),
      (∀ path inner, err = .withPath path inner →
        (classify_entry fs (.error err) = .entry (DirEntry.broken_symlink path) ↔
          inner = .io .notFound ∧
            ∃ m, fs path = some m ∧ m.fileType.is_symlink = true)) ∧
      ((∀ path inner, err = .withPath path inner →
          ¬(inner = .io .notFound ∧
              ∃ m, fs path = some m ∧ m.fileType.is_symlink = true)) →
        classify_entry fs (.error err) = .sendError err) := by
  intro fs err
  have hsym : ∀ path : FPath,
      (((fs path).map (fun m => m.fileType.is_symlink)).getD false = true ↔
        ∃ m, fs path = some m ∧ m.fileType.is_symlink = true) := by
    intro path
    cases hfp : fs path with
    | none => simp
    | some m => simp
  constructor
  · intro path inner heq
    subst heq
    cases inner with
    | io kind =>
      by_cases hc : kind = IoErrorKind.notFound ∧
          ((fs path).map (fun m => m.fileType.is_symlink)).getD false = true
      · rw [classify_entry, if_pos hc]
        exact iff_of_true rfl ⟨by rw [hc.1], (hsym path).mp hc.2⟩
      · rw [classify_entry, if_neg hc]
        refine iff_of_false (by simp) ?_
        rintro ⟨hk, hm⟩
        exact hc ⟨by injection hk, (hsym path).mpr hm⟩
    | withPath q e =>
      refine iff_of_false (by simp [classify_entry]) ?_
      rintro ⟨hk, -⟩
      exact IgnoreError.noConfusion hk
    | otherErr =>
      refine iff_of_false (by simp [classify_entry]) ?_
      rintro ⟨hk, -⟩
      exact IgnoreError.noConfusion hk
  · intro hno
    cases err with
    | withPath path inner =>
      cases inner with
      | io kind =>
        rw [classify_entry, if_neg]
        rintro ⟨hk, hm⟩
        exact hno path (.io kind) rfl ⟨by rw [hk], (hsym path).mp hm⟩
      | withPath q e => rfl
      | otherErr => rfl
    | io kind => rfl
    | otherErr => rfl

/-- Witness for C6: a `NotFound` `WithPath` error whose path stats as a
symlink is classified as a `BrokenSymlink` entry. -/
theorem classify_entry_broken_symlink_w :
    classify_entry (fun _ => some ⟨⟨true⟩⟩)
        (.error (.withPath [1] (.io .notFound))) =
      .entry (DirEntry.broken_symlink [1]) :=
  ((classify_entry_broken_symlink_spec (fun _ => some ⟨⟨true⟩⟩)
      (.withPath [1] (.io .notFound))).1 [1] (.io .notFound) rfl).mpr
    ⟨rfl, ⟨⟨true⟩⟩, rfl, rfl⟩

/-- C7: with `min_depth = Some d` the worker rejects every entry whose depth
is `None` or strictly below `d`; hence for `d ≥ 1` every `BrokenSymlink`
entry (depth `None`) is never emitted. -/
theorem min_depth_spec :
    ∀ (d : Nat) (laterFilters : DirEntry → Bool) (e : DirEntry),
      (min_depth_rejects (some d) e = true ↔
        e.depth = none ∨ ∃ k, e.depth = some k ∧ k < d) ∧
      (min_depth_rejects (some d) e = true →
        worker_emits (some d) laterFilters e = false) ∧
      (1 ≤ d → ∀ (p : FPath) (cell : Option (Option MetadataM)),
        worker_emits (some d) laterFilters ⟨.brokenSymlink p, cell⟩ = false) := by
  intro d laterFilters e
  refine ⟨?_, ?_, ?_⟩
  · cases hi : e.inner with
    | normal ent =>
      have hd : e.depth = some ent.depth := by rw [DirEntry.depth, hi]
      rw [min_depth_rejects, hd]
      simp
    | brokenSymlink p =>
      have hd : e.depth = none := by rw [DirEntry.depth, hi]
      rw [min_depth_rejects, hd]
      simp
  · intro hrej
    rw [worker_emits, if_pos hrej]
  · intro _ p cell
    rw [worker_emits, if_pos]
    rw [min_depth_rejects]
    rfl

/-- Witness for C7: a broken symlink is not emitted under `min_depth = 1`. -/
theorem min_depth_spec_w :
    worker_emits (some 1) (fun _ => true) ⟨.brokenSymlink [2], none⟩ = false :=
  (min_depth_spec 1 (fun _ => true) ⟨.brokenSymlink [2], none⟩).2.2 (by decide) [2] none

/-- After the cell is set, any further calls change nothing and stat nothing. -/
theorem run_meta_calls_cached (fs : FPath → Option MetadataM) :
    ∀ (calls : List MetaCall) (s : DirEntry) (v : Option MetadataM),
      s.cell = some v → run_meta_calls fs calls s = (s, 0) := by
  intro calls
  induction calls with
  | nil => intro s v _; rfl
  | cons c cs ih =>
    intro s v hv
    cases c with
    | metadataOp =>
      rw [run_meta_calls]
      simp only [DirEntry.metadata, hv]
      rw [ih s v hv]
      simp
    | fileTypeOp =>
      rw [run_meta_calls]
      cases hi : s.inner with
      | normal e =>
        simp only [DirEntry.file_type, hi]
        rw [ih s v hv]
        simp
      | brokenSymlink p =>
        simp only [DirEntry.file_type, hi, DirEntry.metadata, hv]
        rw [ih s v hv]
        simp

/-- From an unset cell, any call sequence performs at most one stat. -/
theorem run_meta_calls_fresh (fs : FPath → Option MetadataM) :
    ∀ (calls : List MetaCall) (s : DirEntry), s.cell = none →
      (run_meta_calls fs calls s).2 ≤ 1 := by
  intro calls
  induction calls with
  | nil => intro s _; exact Nat.zero_le 1
  | cons c cs ih =>
    intro s hn
    cases c with
    | metadataOp =>
      rw [run_meta_calls]
      simp only [DirEntry.metadata, hn]
      rw [run_meta_calls_cached fs cs _ _ rfl]
      simp
    | fileTypeOp =>
      rw [run_meta_calls]
      cases hi : s.inner with
      | normal e =>
        simp only [DirEntry.file_type, hi]
        simpa using ih s hn
      | brokenSymlink p =>
        simp only [DirEntry.file_type, hi, DirEntry.metadata, hn]
        rw [run_meta_calls_cached fs cs _ _ rfl]
        simp

/-- C8: across any interleaving of `metadata()` and `file_type()` calls on a
fresh `DirEntry`, the underlying stat runs at most once; a call on a set
cell returns the cached value without re-statting (so a cached `None` is
never retried); the first `metadata()` call on an unset cell performs the
stat and populates the cell with its result. -/
theorem metadata_once_spec :
    ∀ (fs : FPath → Option MetadataM) (inner : DirEntryInner) (calls : List MetaCall),
      (run_meta_calls fs calls ⟨inner, none⟩).2 ≤ 1 ∧
      (∀ (s : DirEntry) (v : Option MetadataM), s.cell = some v →
        DirEntry.metadata fs s = (v, s, 0)) ∧
      (∀ s : DirEntry, s.cell = none →
        DirEntry.metadata fs s =
          (statOf fs s.inner, { s with cell := some (statOf fs s.inner) }, 1)) := by
  intro fs inner calls
  refine ⟨run_meta_calls_fresh fs calls ⟨inner, none⟩ rfl, ?_, ?_⟩
  · intro s v hv
    rw [DirEntry.metadata]
    simp only [hv]
  · intro s hn
    rw [DirEntry.metadata]
    simp only [hn]

/-- Witness for C8: a cached stat failure (`None`) is returned without a
retry. -/
theorem metadata_once_spec_w :
    DirEntry.metadata (fun _ => none) ⟨.brokenSymlink [2], some none⟩ =
      (none, ⟨.brokenSymlink [2], some none⟩, 0) :=
  (metadata_once_spec (fun _ => none) (.brokenSymlink [2]) [.metadataOp]).2.1
    ⟨.brokenSymlink [2], some none⟩ none rfl

/-! ## Receiver lemmas -/

theorem entryStep_no_flush (cfg : RConfig) (p : FPath) (t : Nat) (st : RState)
    (hm : st.mode = .buffering) (hlen : st.buffer.length + 1 ≤ MAX_BUFFER_LENGTH)
    (ht : t ≤ cfg.maxBufTime) :
    entryStep cfg p t st =
      { st with buffer := st.buffer ++ [p], numResults := st.numResults + 1 } := by
  rw [entryStep, hm]
  have h1 : ¬ MAX_BUFFER_LENGTH < (st.buffer ++ [p]).length := by
    rw [List.length_append, List.length_singleton]
    exact Nat.not_lt.mpr hlen
  have h2 : ¬ cfg.maxBufTime < t := Nat.not_lt.mpr ht
  rw [if_neg fun hc => hc.elim h1 h2]

theorem entryStep_flush (cfg : RConfig) (p : FPath) (t : Nat) (st : RState)
    (hm : st.mode = .buffering)
    (hcond : MAX_BUFFER_LENGTH < st.buffer.length + 1 ∨ cfg.maxBufTime < t) :
    entryStep cfg p t st =
      { st with mode := .streaming, buffer := [], out := st.out ++ (st.buffer ++ [p]),
                flushes := st.flushes + 1, numResults := st.numResults + 1 } := by
  rw [entryStep, hm]
  rw [if_pos]
  rcases hcond with h | h
  · exact Or.inl (by rwa [List.length_append, List.length_singleton])
  · exact Or.inr h

theorem entryStep_streaming (cfg : RConfig) (p : FPath) (t : Nat) (st : RState)
    (hm : st.mode = .streaming) :
    entryStep cfg p t st =
      { st with out := st.out ++ [p], numResults := st.numResults + 1 } := by
  rw [entryStep, hm]

theorem entryStep_numResults (cfg : RConfig) (p : FPath) (t : Nat) (st : RState) :
    (entryStep cfg p t st).numResults = st.numResults + 1 := by
  rw [entryStep]
  cases st.mode
  · dsimp only
    split <;> rfl
  · rfl

theorem entryStep_outbuf (cfg : RConfig) (p : FPath) (t : Nat) (st : RState) :
    (entryStep cfg p t st).out.length + (entryStep cfg p t st).buffer.length =
      st.out.length + st.buffer.length + 1 := by
  rw [entryStep]
  cases st.mode
  · dsimp only
    split
    · simp only [List.length_append, List.length_singleton, List.length_nil]
      omega
    · simp only [List.length_append, List.length_singleton]
      omega
  · dsimp only
    simp only [List.length_append, List.length_singleton]
    omega

theorem entryStep_errOut (cfg : RConfig) (p : FPath) (t : Nat) (st : RState) :
    (entryStep cfg p t st).errOut = st.errOut := by
  rw [entryStep]
  cases st.mode
  · dsimp only
    split <;> rfl
  · rfl

/-- In buffering mode, timely entries that fit in the buffer are appended
one by one without flushing. -/
theorem recvLoop_buffering_app (cfg : RConfig) (hq : cfg.quiet = false)
    (hm : cfg.maxResults = none) :
    ∀ (ps : List (FPath × Nat)) (st : RState) (rest : List TimedMsg),
      st.mode = .buffering →
      st.buffer.length + ps.length ≤ MAX_BUFFER_LENGTH →
      (∀ pt ∈ ps, pt.2 ≤ cfg.maxBufTime) →
      recvLoop cfg st (entryMsgs ps ++ rest) =
        recvLoop cfg { st with buffer := st.buffer ++ ps.map Prod.fst,
                               numResults := st.numResults + ps.length } rest := by
  intro ps
  induction ps with
  | nil =>
    intro st rest _ _ _
    simp [entryMsgs]
  | cons pt ps ih =>
    intro st rest hmode hlen htimely
    obtain ⟨mo, buf, n, o, eo, fl⟩ := st
    dsimp only at hmode hlen
    subst hmode
    rw [entryMsgs, List.map_cons, List.cons_append, recvLoop]
    simp only [hq, if_false, hm]
    rw [entryStep_no_flush cfg pt.1 pt.2 _ rfl
        (by dsimp only; rw [List.length_cons] at hlen; omega)
        (htimely pt (List.mem_cons_self pt ps))]
    rw [show (List.map (fun pt : FPath × Nat => (⟨.entry pt.1, pt.2⟩ : TimedMsg)) ps) =
          entryMsgs ps from rfl]
    rw [ih _ rest rfl
        (by dsimp only
            rw [List.length_append, List.length_singleton]
            rw [List.length_cons] at hlen
            omega)
        (fun q hqmem => htimely q (List.mem_cons_of_mem pt hqmem))]
    dsimp only
    rw [List.append_assoc, List.singleton_append, List.length_cons,
        show n + 1 + ps.length = n + (ps.length + 1) by omega]
    simp

/-- In streaming mode, every entry is printed immediately. -/
theorem recvLoop_streaming_app (cfg : RConfig) (hq : cfg.quiet = false)
    (hm : cfg.maxResults = none) :
    ∀ (ps : List (FPath × Nat)) (st : RState) (rest : List TimedMsg),
      st.mode = .streaming →
      recvLoop cfg st (entryMsgs ps ++ rest) =
        recvLoop cfg { st with out := st.out ++ ps.map Prod.fst,
                               numResults := st.numResults + ps.length } rest := by
  intro ps
  induction ps with
  | nil =>
    intro st rest _
    simp [entryMsgs]
  | cons pt ps ih =>
    intro st rest hmode
    obtain ⟨mo, buf, n, o, eo, fl⟩ := st
    dsimp only at hmode
    subst hmode
    rw [entryMsgs, List.map_cons, List.cons_append, recvLoop]
    simp only [hq, if_false, hm]
    rw [entryStep_streaming cfg pt.1 pt.2 _ rfl]
    rw [show (List.map (fun pt : FPath × Nat => (⟨.entry pt.1, pt.2⟩ : TimedMsg)) ps) =
          entryMsgs ps from rfl]
    rw [ih _ rest rfl]
    dsimp only
    rw [List.append_assoc, List.singleton_append, List.length_cons,
        show n + 1 + ps.length = n + (ps.length + 1) by omega]
    simp

/-! ## Claims about the receiver of `src/walk.rs` -/

/-- C1: in interactive non-quiet mode the receiver starts in Buffering with
an empty buffer; up to 1000 timely entries are appended without any flush;
exactly 1001 entries arriving before the time threshold trigger exactly one
buffered flush (in insertion order, no sort) and the transition to
Streaming, after which every entry is printed immediately; an entry
arriving after `max_buffer_time` while Buffering also flushes the buffer in
insertion order and transitions to Streaming. -/
theorem receiver_buffering_spec :
    initRState.mode = .buffering ∧ initRState.buffer = [] ∧
    (∀ (cfg : RConfig) (ps : List (FPath × Nat)),
      cfg.quiet = false → cfg.maxResults = none →
      ps.length ≤ MAX_BUFFER_LENGTH →
      (∀ pt ∈ ps, pt.2 ≤ cfg.maxBufTime) →
      recvLoop cfg initRState (entryMsgs ps) =
        .finished ⟨.buffering, ps.map Prod.fst, ps.length, [], [], 0⟩ []) ∧
    (∀ (cfg : RConfig) (ps more : List (FPath × Nat)),
      cfg.quiet = false → cfg.maxResults = none →
      ps.length = MAX_BUFFER_LENGTH + 1 →
      (∀ pt ∈ ps, pt.2 ≤ cfg.maxBufTime) →
      recvLoop cfg initRState (entryMsgs (ps ++ more)) =
        .finished ⟨.streaming, [], ps.length + more.length,
                   ps.map Prod.fst ++ more.map Prod.fst, [], 1⟩ []) ∧
    (∀ (cfg : RConfig) (p : FPath) (t : Nat) (st : RState),
      st.mode = .buffering → cfg.maxBufTime < t →
      entryStep cfg p t st =
        { st with mode := .streaming, buffer := [],
                  out := st.out ++ (st.buffer ++ [p]),
                  flushes := st.flushes + 1, numResults := st.numResults + 1 }) ∧
    (∀ (cfg : RConfig) (p : FPath) (t : Nat) (st : RState),
      st.mode = .streaming →
      entryStep cfg p t st =
        { st with out := st.out ++ [p], numResults := st.numResults + 1 }) := by
  refine ⟨rfl, rfl, ?_, ?_, ?_, ?_⟩
  · intro cfg ps hq hm hlen htimely
    rw [show initRState = (⟨.buffering, [], 0, [], [], 0⟩ : RState) from rfl]
    rw [← List.append_nil (entryMsgs ps)]
    rw [recvLoop_buffering_app cfg hq hm ps ⟨.buffering, [], 0, [], [], 0⟩ [] rfl
        (by simpa using hlen) htimely]
    rw [recvLoop]
    simp
  · intro cfg ps more hq hm hlen htimely
    have hne : ps ≠ [] := by
      intro h
      rw [h] at hlen
      exact absurd hlen.symm (by decide)
    obtain ⟨qs, lastpt, hps⟩ : ∃ qs lastpt, ps = qs ++ [lastpt] :=
      ⟨ps.dropLast, ps.getLast hne, (List.dropLast_append_getLast hne).symm⟩
    have hqslen : qs.length = MAX_BUFFER_LENGTH := by
      rw [hps, List.length_append, List.length_singleton] at hlen
      omega
    have hqstimely : ∀ pt ∈ qs, pt.2 ≤ cfg.maxBufTime := by
      intro pt hmem
      exact htimely pt (by rw [hps]; exact List.mem_append_left _ hmem)
    have hmsgs : entryMsgs (ps ++ more) =
        entryMsgs qs ++ ((⟨.entry lastpt.1, lastpt.2⟩ : TimedMsg) :: entryMsgs more) := by
      rw [hps, entryMsgs, List.append_assoc, List.singleton_append, List.map_append,
          List.map_cons]
      rfl
    rw [show initRState = (⟨.buffering, [], 0, [], [], 0⟩ : RState) from rfl]
    rw [hmsgs]
    rw [recvLoop_buffering_app cfg hq hm qs ⟨.buffering, [], 0, [], [], 0⟩ _ rfl
        (by simp [hqslen]) hqstimely]
    rw [recvLoop]
    simp only [hq, Bool.false_eq_true, if_false, hm]
    rw [entryStep_flush cfg lastpt.1 lastpt.2 _ rfl
        (Or.inl (by simp [hqslen]))]
    dsimp only
    rw [← List.append_nil (entryMsgs more)]
    rw [recvLoop_streaming_app cfg hq hm more _ [] rfl]
    rw [recvLoop]
    rw [hps]
    simp [List.append_assoc]
  · intro cfg p t st hmode ht
    exact entryStep_flush cfg p t st hmode (Or.inr ht)
  · intro cfg p t st hmode
    exact entryStep_streaming cfg p t st hmode

/-- Witness for C1: two timely entries stay buffered, with no flush. -/
theorem receiver_buffering_spec_w :
    recvLoop ⟨false, none, none, false⟩ initRState (entryMsgs [([5], 0), ([3], 7)]) =
      .finished ⟨.buffering, [[5], [3]], 2, [], [], 0⟩ [] :=
  receiver_buffering_spec.2.2.1 ⟨false, none, none, false⟩ [([5], 0), ([3], 7)]
    rfl rfl (by decide) (by decide)

theorem countEntries_nil : countEntries [] = 0 := rfl

theorem countEntries_cons_entry (m : TimedMsg) (l : List TimedMsg)
    (h : isEntryMsg m = true) : countEntries (m :: l) = countEntries l + 1 := by
  rw [countEntries, countEntries, List.filter_cons_of_pos h, List.length_cons]

theorem countEntries_cons_error (m : TimedMsg) (l : List TimedMsg)
    (h : isEntryMsg m = false) : countEntries (m :: l) = countEntries l := by
  rw [countEntries, countEntries, List.filter_cons_of_neg (by simp [h])]

/-- With `max_results = Some k` and fewer than `k` results so far, the loop
consumes a prefix holding exactly `min k (countEntries msgs) - st.numResults`
further entries, each entry adding one to (stdout so far + buffer). -/
theorem recvLoop_maxResults (cfg : RConfig) (k : Nat)
    (hq : cfg.quiet = false) (hm : cfg.maxResults = some k) :
    ∀ (msgs : List TimedMsg) (st : RState), st.numResults < k →
      ∃ st' rem front,
        recvLoop cfg st msgs = .finished st' rem ∧
        msgs = front ++ rem ∧
        st'.out.length + st'.buffer.length =
          st.out.length + st.buffer.length + countEntries front ∧
        st'.numResults = st.numResults + countEntries front ∧
        st'.numResults = min k (st.numResults + countEntries msgs) := by
  intro msgs
  induction msgs with
  | nil =>
    intro st hlt
    refine ⟨st, [], [], rfl, rfl, by simp [countEntries_nil], by simp [countEntries_nil], ?_⟩
    rw [countEntries_nil, Nat.add_zero, Nat.min_eq_right (Nat.le_of_lt hlt)]
  | cons m rest ih =>
    intro st hlt
    cases hres : m.res with
    | error e =>
      have hme : isEntryMsg m = false := by rw [isEntryMsg, hres]
      have hloop : recvLoop cfg st (m :: rest) =
          recvLoop cfg
            (if cfg.showFilesystemErrors then { st with errOut := st.errOut ++ [e] } else st)
            rest := by
        rw [recvLoop, hres]
      have hobs :
          (if cfg.showFilesystemErrors then { st with errOut := st.errOut ++ [e] } else st) =
            { st with errOut :=
              (if cfg.showFilesystemErrors then st.errOut ++ [e] else st.errOut) } := by
        split <;> rfl
      obtain ⟨st', rem, front, h1, h2, h3, h4, h5⟩ :=
        ih (if cfg.showFilesystemErrors then { st with errOut := st.errOut ++ [e] } else st)
          (by rw [hobs]; exact hlt)
      rw [hobs] at h1 h3 h4 h5
      refine ⟨st', rem, m :: front, by rw [hloop, hobs]; exact h1,
        by rw [h2, List.cons_append], ?_, ?_, ?_⟩
      · rw [countEntries_cons_error m front hme]
        exact h3
      · rw [countEntries_cons_error m front hme]
        exact h4
      · rw [countEntries_cons_error m rest hme]
        exact h5
    | entry p =>
      have hme : isEntryMsg m = true := by rw [isEntryMsg, hres]
      have hn2 : (entryStep cfg p m.elapsed st).numResults = st.numResults + 1 :=
        entryStep_numResults cfg p m.elapsed st
      by_cases hbk : k ≤ (entryStep cfg p m.elapsed st).numResults
      · have hloop : recvLoop cfg st (m :: rest) =
            .finished (entryStep cfg p m.elapsed st) rest := by
          rw [recvLoop, hres]
          simp only [hq, Bool.false_eq_true, if_false, hm]
          rw [if_pos hbk]
        have hkeq : k = st.numResults + 1 := by omega
        refine ⟨entryStep cfg p m.elapsed st, rest, [m], hloop,
          by rw [List.singleton_append], ?_, ?_, ?_⟩
        · rw [countEntries_cons_entry m [] hme, countEntries_nil]
          exact entryStep_outbuf cfg p m.elapsed st
        · rw [countEntries_cons_entry m [] hme, countEntries_nil, hn2]
        · rw [countEntries_cons_entry m rest hme, hn2]
          omega
      · have hloop : recvLoop cfg st (m :: rest) =
            recvLoop cfg (entryStep cfg p m.elapsed st) rest := by
          rw [recvLoop, hres]
          simp only [hq, Bool.false_eq_true, if_false, hm]
          rw [if_neg hbk]
        obtain ⟨st', rem, front, h1, h2, h3, h4, h5⟩ :=
          ih (entryStep cfg p m.elapsed st) (Nat.lt_of_not_le hbk)
        have hob : (entryStep cfg p m.elapsed st).out.length +
            (entryStep cfg p m.elapsed st).buffer.length =
              st.out.length + st.buffer.length + 1 :=
          entryStep_outbuf cfg p m.elapsed st
        refine ⟨st', rem, m :: front, by rw [hloop]; exact h1,
          by rw [h2, List.cons_append], ?_, ?_, ?_⟩
        · rw [countEntries_cons_entry m front hme]
          omega
        · rw [countEntries_cons_entry m front hme, h4, hn2]
          omega
        · rw [countEntries_cons_entry m rest hme, h5, hn2]
          omega

/-- C2 (amended): in interactive non-quiet mode with
`max_results = Some k` and `k ≥ 1`, the receiver emits exactly
`min k produced` entries and consumes no messages past the `k`-th entry. -/
theorem receiver_max_results_spec :
    ∀ (cfg : RConfig) (msgs : List TimedMsg) (k : Nat),
      cfg.quiet = false → cfg.maxResults = some k → 1 ≤ k →
      (run_receiver cfg msgs).out.length = min k (countEntries msgs) ∧
      ∃ front, msgs = front ++ (run_receiver cfg msgs).remaining ∧
        countEntries front = min k (countEntries msgs) := by
  intro cfg msgs k hq hm hk
  obtain ⟨st', rem, front, h1, h2, h3, h4, h5⟩ :=
    recvLoop_maxResults cfg k hq hm msgs initRState (by simpa using hk)
  have hout : (run_receiver cfg msgs).out = st'.out ++ sortPaths st'.buffer := by
    rw [run_receiver, h1]
  have hrem : (run_receiver cfg msgs).remaining = rem := by
    rw [run_receiver, h1]
  have h3' : st'.out.length + st'.buffer.length = countEntries front := by
    simpa [initRState] using h3
  have h4' : st'.numResults = countEntries front := by
    simpa [initRState] using h4
  have h5' : st'.numResults = min k (countEntries msgs) := by
    simpa [initRState] using h5
  constructor
  · rw [hout, List.length_append, sortPaths, List.length_insertionSort]
    omega
  · refine ⟨front, by rw [hrem]; exact h2, ?_⟩
    omega

/-- C2 as stated is false at `k = 0`: with `max_results = Some 0` and one
produced entry, the receiver emits 1 entry, not `min 0 1 = 0` (the
`num_results >= max_results` check runs only after the entry is buffered). -/
theorem receiver_max_results_counterexample :
    ¬ ((run_receiver ⟨false, some 0, none, false⟩ [⟨.entry [7], 0⟩]).out.length =
        min 0 (countEntries [⟨.entry [7], 0⟩])) := by
  decide

/-- Witness for C2 (amended): `k = 2`, three produced entries, exactly 2
emitted. -/
theorem receiver_max_results_spec_w :
    (run_receiver ⟨false, some 2, none, false⟩
        (entryMsgs [([3], 0), ([1], 0), ([2], 0)])).out.length =
      min 2 (countEntries (entryMsgs [([3], 0), ([1], 0), ([2], 0)])) :=
  (receiver_max_results_spec ⟨false, some 2, none, false⟩
    (entryMsgs [([3], 0), ([1], 0), ([2], 0)]) 2 rfl rfl (by decide)).1

theorem entryStep_buffering_out (cfg : RConfig) (p : FPath) (t : Nat) (st : RState)
    (hP : st.mode = .buffering → st.out = []) :
    (entryStep cfg p t st).mode = .buffering → (entryStep cfg p t st).out = [] := by
  rw [entryStep]
  cases hmo : st.mode with
  | buffering =>
    dsimp only
    split
    · intro h
      exact absurd h (by simp)
    · intro _
      exact hP hmo
  | streaming =>
    dsimp only
    intro h
    exact absurd h (by simp)

/-- If the loop never left Buffering, nothing was printed during the loop. -/
theorem recvLoop_buffering_out_empty (cfg : RConfig) :
    ∀ (msgs : List TimedMsg) (st st' : RState) (rem : List TimedMsg),
      recvLoop cfg st msgs = .finished st' rem →
      (st.mode = .buffering → st.out = []) →
      (st'.mode = .buffering → st'.out = []) := by
  intro msgs
  induction msgs with
  | nil =>
    intro st st' rem heq hP
    rw [recvLoop] at heq
    injection heq with h1 _
    rw [← h1]
    exact hP
  | cons m rest ih =>
    intro st st' rem heq hP
    rw [recvLoop] at heq
    cases hres : m.res with
    | entry p =>
      rw [hres] at heq
      dsimp only at heq
      by_cases hquiet : cfg.quiet = true
      · rw [if_pos hquiet] at heq
        exact absurd heq (by simp)
      · rw [if_neg hquiet] at heq
        have hP2 := entryStep_buffering_out cfg p m.elapsed st hP
        cases hmr : cfg.maxResults with
        | none =>
          rw [hmr] at heq
          exact ih _ st' rem heq hP2
        | some k =>
          rw [hmr] at heq
          dsimp only at heq
          by_cases hbk : k ≤ (entryStep cfg p m.elapsed st).numResults
          · rw [if_pos hbk] at heq
            injection heq with h1 _
            rw [← h1]
            exact hP2
          · rw [if_neg hbk] at heq
            exact ih _ st' rem heq hP2
    | error e =>
      rw [hres] at heq
      dsimp only at heq
      refine ih _ st' rem heq ?_
      split <;> exact hP

/-- A run over error-only messages only accumulates stderr lines. -/
theorem recvLoop_no_entries (cfg : RConfig) :
    ∀ (msgs : List TimedMsg) (st : RState),
      (∀ m ∈ msgs, isEntryMsg m = false) →
      ∃ e, recvLoop cfg st msgs = .finished { st with errOut := e } [] := by
  intro msgs
  induction msgs with
  | nil =>
    intro st _
    exact ⟨st.errOut, rfl⟩
  | cons m rest ih =>
    intro st hall
    have hme : isEntryMsg m = false := hall m (List.mem_cons_self m rest)
    cases hres : m.res with
    | entry p =>
      rw [isEntryMsg, hres] at hme
      exact absurd hme (by simp)
    | error e =>
      have hrest : ∀ m' ∈ rest, isEntryMsg m' = false :=
        fun m' hm' => hall m' (List.mem_cons_of_mem m hm')
      by_cases hshow : cfg.showFilesystemErrors = true
      · obtain ⟨e', he'⟩ := ih { st with errOut := st.errOut ++ [e] } hrest
        refine ⟨e', ?_⟩
        rw [recvLoop, hres]
        dsimp only
        rw [if_pos hshow]
        exact he'
      · obtain ⟨e', he'⟩ := ih st hrest
        refine ⟨e', ?_⟩
        rw [recvLoop, hres]
        dsimp only
        rw [if_neg hshow]
        exact he'

/-- In quiet mode, the loop returns early at the first entry message,
leaving the state unchanged except for stderr lines. -/
theorem recvLoop_quiet_first_entry (cfg : RConfig) (hq : cfg.quiet = true) :
    ∀ (front : List TimedMsg) (st : RState) (p : FPath) (t : Nat)
      (rest : List TimedMsg),
      (∀ m ∈ front, isEntryMsg m = false) →
      ∃ e, recvLoop cfg st (front ++ ⟨.entry p, t⟩ :: rest) =
        .earlyQuiet { st with errOut := e } rest := by
  intro front
  induction front with
  | nil =>
    intro st p t rest _
    refine ⟨st.errOut, ?_⟩
    rw [List.nil_append, recvLoop]
    dsimp only
    rw [if_pos hq]
  | cons m front ih =>
    intro st p t rest hall
    have hme : isEntryMsg m = false := hall m (List.mem_cons_self m front)
    cases hres : m.res with
    | entry q =>
      rw [isEntryMsg, hres] at hme
      exact absurd hme (by simp)
    | error e =>
      have hfront : ∀ m' ∈ front, isEntryMsg m' = false :=
        fun m' hm' => hall m' (List.mem_cons_of_mem m hm')
      by_cases hshow : cfg.showFilesystemErrors = true
      · obtain ⟨e', he'⟩ := ih { st with errOut := st.errOut ++ [e] } p t rest hfront
        refine ⟨e', ?_⟩
        rw [List.cons_append, recvLoop, hres]
        dsimp only
        rw [if_pos hshow]
        exact he'
      · obtain ⟨e', he'⟩ := ih st p t rest hfront
        refine ⟨e', ?_⟩
        rw [List.cons_append, recvLoop, hres]
        dsimp only
        rw [if_neg hshow]
        exact he'

/-- C9: in quiet interactive mode the receiver returns `HasResults(true)`
immediately at the first entry message — nothing printed or buffered, all
messages after that entry left unconsumed — and returns `HasResults(false)`
with no output if the channel closes without any entry. -/
theorem receiver_quiet_spec :
    (∀ (cfg : RConfig) (front : List TimedMsg) (p : FPath) (t : Nat)
        (rest : List TimedMsg),
      cfg.quiet = true → (∀ m ∈ front, isEntryMsg m = false) →
      (run_receiver cfg (front ++ ⟨.entry p, t⟩ :: rest)).exit = .hasResults true ∧
      (run_receiver cfg (front ++ ⟨.entry p, t⟩ :: rest)).out = [] ∧
      (run_receiver cfg (front ++ ⟨.entry p, t⟩ :: rest)).remaining = rest) ∧
    (∀ (cfg : RConfig) (msgs : List TimedMsg),
      cfg.quiet = true → (∀ m ∈ msgs, isEntryMsg m = false) →
      (run_receiver cfg msgs).exit = .hasResults false ∧
      (run_receiver cfg msgs).out = []) := by
  constructor
  · intro cfg front p t rest hq hfront
    obtain ⟨e, he⟩ := recvLoop_quiet_first_entry cfg hq front initRState p t rest hfront
    rw [run_receiver, he]
    exact ⟨rfl, rfl, rfl⟩
  · intro cfg msgs hq hall
    obtain ⟨e, he⟩ := recvLoop_no_entries cfg msgs initRState hall
    rw [run_receiver, he]
    refine ⟨?_, rfl⟩
    dsimp only
    rw [if_pos hq]

/-- Witness for C9: an error then an entry in quiet mode returns
`HasResults(true)` with the rest unconsumed. -/
theorem receiver_quiet_spec_w :
    (run_receiver ⟨true, none, none, true⟩
        ([⟨.error .otherErr, 0⟩] ++ ⟨.entry [4], 1⟩ :: [⟨.entry [9], 2⟩])).exit =
      .hasResults true :=
  (receiver_quiet_spec.1 ⟨true, none, none, true⟩ [⟨.error .otherErr, 0⟩] [4] 1
    [⟨.entry [9], 2⟩] rfl (by decide)).1

/-- Forget the stderr component of a receiver state. -/
def stripErr (s : RState) : RState := { s with errOut := [] }

theorem entryStep_stripErr (cfg : RConfig) (p : FPath) (t : Nat) (s : RState) :
    stripErr (entryStep cfg p t s) = entryStep cfg p t (stripErr s) := by
  obtain ⟨mo, buf, n, o, eo, fl⟩ := s
  cases mo with
  | buffering =>
    rw [entryStep, entryStep]
    dsimp only [stripErr]
    split <;> rfl
  | streaming => rfl

theorem stripErr_numResults (s : RState) : (stripErr s).numResults = s.numResults := rfl

/-- The loop states agree up to stderr lines. -/
def sameObs : LoopOutcome → LoopOutcome → Prop
  | .earlyQuiet s _, .earlyQuiet t _ => stripErr s = stripErr t
  | .finished s _, .finished t _ => stripErr s = stripErr t
  | _, _ => False

/-- Removing the `Error` messages from the stream changes neither the mode,
the buffer, `num_results`, stdout, nor the flush count of the loop's
outcome. -/
theorem recvLoop_filter_errors (cfg : RConfig) :
    ∀ (msgs : List TimedMsg) (s t : RState), stripErr s = stripErr t →
      sameObs (recvLoop cfg s msgs) (recvLoop cfg t (msgs.filter isEntryMsg)) := by
  intro msgs
  induction msgs with
  | nil =>
    intro s t h
    exact h
  | cons m rest ih =>
    intro s t h
    cases hres : m.res with
    | entry p =>
      have hme : isEntryMsg m = true := by rw [isEntryMsg, hres]
      rw [List.filter_cons_of_pos hme]
      rw [recvLoop, recvLoop, hres]
      dsimp only
      by_cases hq : cfg.quiet = true
      · rw [if_pos hq, if_pos hq]
        exact h
      · rw [if_neg hq, if_neg hq]
        have hstep : stripErr (entryStep cfg p m.elapsed s) =
            stripErr (entryStep cfg p m.elapsed t) := by
          rw [entryStep_stripErr, entryStep_stripErr, h]
        have hnum : (entryStep cfg p m.elapsed s).numResults =
            (entryStep cfg p m.elapsed t).numResults := by
          rw [← stripErr_numResults, hstep, stripErr_numResults]
        cases hmr : cfg.maxResults with
        | none => exact ih _ _ hstep
        | some k =>
          dsimp only
          by_cases hbk : k ≤ (entryStep cfg p m.elapsed s).numResults
          · rw [if_pos hbk, if_pos (hnum ▸ hbk)]
            exact hstep
          · rw [if_neg hbk, if_neg (hnum ▸ hbk)]
            exact ih _ _ hstep
    | error e =>
      have hme : isEntryMsg m = false := by rw [isEntryMsg, hres]
      rw [List.filter_cons_of_neg (by simp [hme])]
      rw [recvLoop, hres]
      dsimp only
      refine ih _ _ ?_
      rw [← h]
      split <;> rfl

/-- When `show_filesystem_errors` is off, no stderr line is ever recorded. -/
theorem recvLoop_no_show_errOut (cfg : RConfig)
    (hs : cfg.showFilesystemErrors = false) :
    ∀ (msgs : List TimedMsg) (st : RState),
      (match recvLoop cfg st msgs with
        | .earlyQuiet s _ => s.errOut
        | .finished s _ => s.errOut) = st.errOut := by
  intro msgs
  induction msgs with
  | nil =>
    intro st
    rfl
  | cons m rest ih =>
    intro st
    cases hres : m.res with
    | entry p =>
      rw [recvLoop, hres]
      dsimp only
      by_cases hq : cfg.quiet = true
      · rw [if_pos hq]
      · rw [if_neg hq]
        cases hmr : cfg.maxResults with
        | none =>
          rw [ih (entryStep cfg p m.elapsed st)]
          exact entryStep_errOut cfg p m.elapsed st
        | some k =>
          dsimp only
          by_cases hbk : k ≤ (entryStep cfg p m.elapsed st).numResults
          · rw [if_pos hbk]
            exact entryStep_errOut cfg p m.elapsed st
          · rw [if_neg hbk]
            rw [ih (entryStep cfg p m.elapsed st)]
            exact entryStep_errOut cfg p m.elapsed st
    | error e =>
      rw [recvLoop, hres]
      dsimp only
      rw [if_neg (by rw [hs]; exact Bool.false_ne_true)]
      exact ih st

/-- C10: `WorkerResult::Error` messages affect neither the emitted entries
nor the receiver's exit code — the run on any message sequence prints the
same stdout and returns the same `ExitCode` as the run on the sequence with
all errors removed — and with `show_filesystem_errors` off they produce no
stderr lines either. -/
theorem receiver_errors_transparent :
    ∀ (cfg : RConfig) (msgs : List TimedMsg),
      (run_receiver cfg msgs).out =
        (run_receiver cfg (msgs.filter isEntryMsg)).out ∧
      (run_receiver cfg msgs).exit =
        (run_receiver cfg (msgs.filter isEntryMsg)).exit ∧
      (cfg.showFilesystemErrors = false → (run_receiver cfg msgs).errOut = []) := by
  intro cfg msgs
  have h := recvLoop_filter_errors cfg msgs initRState initRState rfl
  have herr : ∀ hs : cfg.showFilesystemErrors = false,
      (run_receiver cfg msgs).errOut = [] := by
    intro hs
    have h2 := recvLoop_no_show_errOut cfg hs msgs initRState
    rw [run_receiver]
    cases heq : recvLoop cfg initRState msgs with
    | earlyQuiet s rem =>
      rw [heq] at h2
      exact h2
    | finished s rem =>
      rw [heq] at h2
      exact h2
  cases heq1 : recvLoop cfg initRState msgs with
  | earlyQuiet s rem =>
    cases heq2 : recvLoop cfg initRState (msgs.filter isEntryMsg) with
    | earlyQuiet s' rem' =>
      rw [heq1, heq2] at h
      have h' : stripErr s = stripErr s' := h
      have hout : s.out = s'.out := by
        have h2 := congrArg RState.out h'
        exact h2
      refine ⟨?_, ?_, herr⟩
      · rw [run_receiver, run_receiver, heq1, heq2]
        exact hout
      · rw [run_receiver, run_receiver, heq1, heq2]
    | finished s' rem' =>
      rw [heq1, heq2] at h
      exact (h : False).elim
  | finished s rem =>
    cases heq2 : recvLoop cfg initRState (msgs.filter isEntryMsg) with
    | earlyQuiet s' rem' =>
      rw [heq1, heq2] at h
      exact (h : False).elim
    | finished s' rem' =>
      rw [heq1, heq2] at h
      have h' : stripErr s = stripErr s' := h
      have hout : s.out = s'.out := by
        have h2 := congrArg RState.out h'
        exact h2
      have hbuf : s.buffer = s'.buffer := by
        have h2 := congrArg RState.buffer h'
        exact h2
      refine ⟨?_, ?_, herr⟩
      · rw [run_receiver, run_receiver, heq1, heq2]
        dsimp only
        rw [hout, hbuf]
      · rw [run_receiver, run_receiver, heq1, heq2]

/-- Witness for C10: with error display off, an error message leaves no
trace on stderr. -/
theorem receiver_errors_transparent_w :
    (run_receiver ⟨false, none, none, false⟩
        [⟨.error .otherErr, 0⟩, ⟨.entry [1], 5⟩]).errOut = [] :=
  (receiver_errors_transparent ⟨false, none, none, false⟩
    [⟨.error .otherErr, 0⟩, ⟨.entry [1], 5⟩]).2.2 rfl
